import Mathlib

/-!
Verification of the core of the `tt_elo_app` ping-pong tracker
(`src/app.py`): the ELO computation `calc_elo`, the full-history
rebuild `rebuild_players`, the per-player trajectory `elo_history`,
and the submit/confirm/reject pending-match workflow.

Python floats are modelled by exact real arithmetic: `calc_elo` is
implemented here by exact integer comparisons (comparing
`10 ^ ((r_b - r_a)/400)` with rationals amounts to comparing integer
powers), and is proved to compute the round-half-to-even of the real
ELO formula `r_a + k * (score_a - 1 / (1 + 10 ^ ((r_b - r_a)/400)))`.
-/

namespace TT

/-- Three-way comparison on integers, by `<` and `=`. -/
def icmp (x y : ℤ) : Ordering :=
  if x < y then .lt else if x = y then .eq else .gt

/-- Compares `t = 10 ^ (d/400)` with a positive fraction `a / b`
(`a, b > 0`), exactly: `t < a/b` iff `t^400 < (a/b)^400` iff
`10^d * b^400 < a^400`, an integer comparison. -/
def tCmp2 (d a b : ℤ) : Ordering :=
  if 0 ≤ d then icmp (10 ^ d.toNat * b ^ 400) (a ^ 400)
  else icmp (b ^ 400) (10 ^ (-d).toNat * a ^ 400)

/-- Compares `k * e` with `j2 / 2` for `k > 0`, where
`e = 1 / (1 + 10 ^ (d/400)) ∈ (0,1)` is the expected score. -/
def keCmpPos (k d j2 : ℤ) : Ordering :=
  if j2 ≤ 0 then .gt
  else if 2 * k ≤ j2 then .lt
  else (tCmp2 d (2 * k - j2) j2).swap

/-- Compares `k * e` with `j2 / 2` for arbitrary `k`, where
`e = 1 / (1 + 10 ^ (d/400))` is the expected score. -/
def keCmp (k d j2 : ℤ) : Ordering :=
  if 0 < k then keCmpPos k d j2
  else if k = 0 then icmp 0 j2
  else (keCmpPos (-k) d (-j2)).swap

/-- Linear scan computing the least `j' ≥ j` with `k * e ≤ j'`
(given enough fuel), i.e. the ceiling of `k * e` when started below it. -/
def scanCeil (k d : ℤ) : ℕ → ℤ → ℤ
  | 0, j => j
  | fuel + 1, j =>
    match keCmp k d (2 * j) with
    | .gt => scanCeil k d fuel (j + 1)
    | .lt => j
    | .eq => j

/-- The ceiling of `k * e`, where `e = 1 / (1 + 10 ^ (d/400))`. -/
def ceilKE (k d : ℤ) : ℤ :=
  if 0 < k then scanCeil k d k.toNat 1
  else if k = 0 then 0
  else scanCeil k d (-k).toNat (k + 1)

/-- The classical ELO update of `src/app.py`:
`round(r_a + k * (score_a - 1 / (1 + 10 ** ((r_b - r_a) / 400))), 0)`
with Python's round-half-to-even, computed exactly.  With
`m = r_a + k * score_a` and `c = ⌈k * e⌉` the result is the
half-even rounding of `m - k * e`, decided by comparing `k * e`
with `c - 1/2`. -/
def calc_elo (r_a r_b score_a : ℤ) (k : ℤ := 32) : ℤ :=
  let d := r_b - r_a
  let m := r_a + k * score_a
  let c := ceilKE k d
  let n := m - c
  match keCmp k d (2 * c - 1) with
  | .gt => n
  | .lt => n + 1
  | .eq => if n % 2 = 0 then n else n + 1

/-- Real-valued `10 ^ (d/400)` from the ELO expected-score formula. -/
noncomputable def tReal (d : ℤ) : ℝ := (10 : ℝ) ^ ((d : ℝ) / 400)

/-- Real-valued expected score `1 / (1 + 10 ^ (d/400))` for rating
difference `d = r_b - r_a`. -/
noncomputable def expectedReal (d : ℤ) : ℝ := 1 / (1 + tReal d)

/-- Real value `k * expectedScore`. -/
noncomputable def keReal (k d : ℤ) : ℝ := (k : ℝ) * expectedReal d

/-- The exact real ELO update value before rounding:
`r_a + k * (score_a - expectedA)`. -/
noncomputable def eloReal (r_a r_b score_a k : ℤ) : ℝ :=
  (r_a : ℝ) + (k : ℝ) * ((score_a : ℝ) - expectedReal (r_b - r_a))

/-- `n` is the round-half-to-even of the real number `x`: either `n` is
within distance `1/2` of `x`, or `x` is a tie (distance exactly `1/2`)
and `n` is the even choice. -/
def IsRoundHalfEven (x : ℝ) (n : ℤ) : Prop :=
  |x - (n : ℝ)| < 1 / 2 ∨ (|x - (n : ℝ)| = 1 / 2 ∧ n % 2 = 0)

/-- Interpretation of an `Ordering` value as a comparison of two reals. -/
def OrdRel : Ordering → ℝ → ℝ → Prop
  | .lt, x, y => x < y
  | .eq, x, y => x = y
  | .gt, x, y => y < x

/-- One row of `players.csv`: name, ELO, wins (Siege), losses
(Niederlagen), games (Spiele), and the stored PIN credential. -/
structure Player where
  name : String
  elo : ℤ
  siege : ℤ
  nieder : ℤ
  spiele : ℤ
  pin : String
deriving DecidableEq

/-- One row of `matches.csv`: timestamp (Datum), the two player names,
and the two point tallies. -/
structure Match where
  datum : ℤ
  a : String
  b : String
  pa : ℤ
  pb : ℤ
deriving DecidableEq

/-- Reset of one roster row, as done at the top of `rebuild_players`:
ELO back to 1200 and all counters to 0, name and PIN untouched. -/
def resetPlayer (p : Player) : Player :=
  { p with elo := 1200, siege := 0, nieder := 0, spiele := 0 }

/-- First roster row with the given name (pandas
`players_df.loc[players_df["Name"] == nm]` read via `.iat[0]`). -/
def findRow (ps : List Player) (nm : String) : Option Player :=
  ps.find? (fun p => p.name == nm)

/-- ELO of the first roster row with the given name (defaults to 1200,
but is only read under the guard that the name is present). -/
def rosterElo (ps : List Player) (nm : String) : ℤ :=
  match findRow ps nm with
  | some p => p.elo
  | none => 1200

/-- The per-row effect of the masked assignment of `rebuild_players`:
rows whose name matches get the new ELO and the first matching row
`p0`'s counters incremented; other rows are unchanged. -/
def applyUpdate (nm : String) (newElo sWin sLoss : ℤ) (p0 p : Player) : Player :=
  if p.name == nm then
    { p with
      elo := newElo
      siege := p0.siege + sWin
      nieder := p0.nieder + sLoss
      spiele := p0.spiele + 1 }
  else p

/-- Row update of `rebuild_players`: every row whose name matches gets
the new ELO and the first matching row's counters incremented, exactly
as the pandas masked assignment writes one value list to all matching
rows, reading the increments from `.iat[0]`. -/
def updateRows (ps : List Player) (nm : String) (newElo sWin sLoss : ℤ) : List Player :=
  match findRow ps nm with
  | none => ps
  | some p0 => ps.map (applyUpdate nm newElo sWin sLoss p0)

/-- Outcome for player A of a match: `1 if pa > pb else 0`, as computed
identically in both replay loops of the source (a tie counts as a loss
for A). -/
def scoreA (m : Match) : ℤ :=
  if m.pa > m.pb then 1 else 0

/-- One iteration of the replay loop of `rebuild_players` over a single
match row: skip when either participant is absent from the roster,
otherwise read both ELOs, apply `calc_elo` symmetrically and write the
two updates in sequence (A first, then B, as in the source). -/
def replayStep (k : ℤ) (ps : List Player) (m : Match) : List Player :=
  if (findRow ps m.a).isNone || (findRow ps m.b).isNone then ps
  else
    let r_a := rosterElo ps m.a
    let r_b := rosterElo ps m.b
    let ps1 := updateRows ps m.a (calc_elo r_a r_b (scoreA m) k) (scoreA m) (1 - scoreA m)
    updateRows ps1 m.b (calc_elo r_b r_a (1 - scoreA m) k) (1 - scoreA m) (scoreA m)

/-- Chronological sort of the match list (`matches_df.sort_values("Datum")`).
The source relies on pandas' default quicksort, which is documented as not
stable, so the relative order of rows with equal timestamps is unspecified
there; the model fixes that order with a stable mergesort.  Statements proved
over this sort are insensitive to the tie order unless they speak about the
tie order itself. -/
def sortByDatum (ms : List Match) : List Match :=
  ms.mergeSort (fun m1 m2 => decide (m1.datum ≤ m2.datum))

/-- Full recompute of the roster from the confirmed match history
(`rebuild_players` in `src/app.py`): reset every row, return the reset
roster when the history is empty, otherwise replay the matches sorted
ascending by timestamp. -/
def rebuild_players (players_df : List Player) (matches_df : List Match) (k : ℤ := 32) :
    List Player :=
  let ps := players_df.map resetPlayer
  if matches_df.isEmpty then ps
  else (sortByDatum matches_df).foldl (replayStep k) ps

/-- Lookup in the in-memory ratings dict of `elo_history`. -/
def rlookup (rts : List (String × ℤ)) (nm : String) : Option ℤ :=
  (rts.find? (fun e => e.1 == nm)).map (fun e => e.2)

/-- Python `dict.setdefault(nm, 1200)`: insert 1200 when absent. -/
def rsetdefault (rts : List (String × ℤ)) (nm : String) : List (String × ℤ) :=
  match rlookup rts nm with
  | some _ => rts
  | none => rts ++ [(nm, 1200)]

/-- The per-entry effect of overwriting key `nm` with value `v`. -/
def setPair (nm : String) (v : ℤ) (e : String × ℤ) : String × ℤ :=
  if e.1 == nm then (nm, v) else e

/-- Python dict assignment `ratings[nm] = v`: overwrite when present,
insert when absent. -/
def rassign (rts : List (String × ℤ)) (nm : String) (v : ℤ) : List (String × ℤ) :=
  match rlookup rts nm with
  | some _ => rts.map (setPair nm v)
  | none => rts ++ [(nm, v)]

/-- One iteration of the replay loop of `elo_history`: seed both
participants at 1200, apply `calc_elo` symmetrically, store both new
ratings in the dict, and append an entry when the tracked player is
participant A (or, failing that, participant B). -/
def histStep (player : String) (k : ℤ) (st : List (String × ℤ) × List (ℤ × ℤ)) (m : Match) :
    List (String × ℤ) × List (ℤ × ℤ) :=
  let rts := rsetdefault (rsetdefault st.1 m.a) m.b
  let ra := (rlookup rts m.a).getD 1200
  let rb := (rlookup rts m.b).getD 1200
  let new_ra := calc_elo ra rb (scoreA m) k
  let new_rb := calc_elo rb ra (1 - scoreA m) k
  let rts2 := rassign (rassign rts m.a new_ra) m.b new_rb
  let hist :=
    if m.a == player then st.2 ++ [(m.datum, new_ra)]
    else if m.b == player then st.2 ++ [(m.datum, new_rb)]
    else st.2
  (rts2, hist)

/-- Rating trajectory of one player (`elo_history` in `src/app.py`):
replay the matches sorted by timestamp over a fresh dict, collecting a
(timestamp, new rating) entry for every match the player takes part in. -/
def elo_history (player : String) (matches_df : List Match) (k : ℤ := 32) : List (ℤ × ℤ) :=
  ((sortByDatum matches_df).foldl (histStep player k) ([], [])).2

/-- One row of `pending_matches.csv`, with the two confirmation flags. -/
structure PendingRow where
  datum : ℤ
  a : String
  b : String
  pa : ℤ
  pb : ℤ
  confA : Bool
  confB : Bool
deriving DecidableEq

/-- The three stores the handlers in `src/app.py` mutate.  Pending rows
carry their pandas index label. -/
structure AppState where
  players : List Player
  matchHist : List Match
  pending : List (ℕ × PendingRow)
deriving DecidableEq

/-- Projection of a pending row to a confirmed-match row, as in the
promotion `pending.loc[[idx], ["Datum","A","B","PunkteA","PunkteB"]]`. -/
def toMatch (r : PendingRow) : Match :=
  ⟨r.datum, r.a, r.b, r.pa, r.pb⟩

/-- Submit handler (`Match speichern`): error when the reporter equals
the opponent, otherwise store a pending row with `confA = true`,
`confB = false` at label `len(pending)` - pandas `loc` overwrites an
existing row with that label and appends otherwise. -/
def submitStep (st : AppState) (current opponent : String) (pa pb now : ℤ) :
    Except String AppState :=
  if current == opponent then .error "Spieler duerfen nicht identisch sein."
  else
    let lbl := st.pending.length
    let row : PendingRow := ⟨now, current, opponent, pa, pb, true, false⟩
    if (st.pending.find? (fun e => e.1 == lbl)).isSome then
      .ok { st with pending := st.pending.map (fun e => if e.1 == lbl then (lbl, row) else e) }
    else
      .ok { st with pending := st.pending ++ [(lbl, row)] }

/-- Confirm handler (`Bestaetigen` button): set the flag of the side the
current player is on, and if both flags are now true, append the row to
the confirmed history, drop it from pending and rebuild the roster over
the updated history.  An unknown label does nothing (the button only
exists for rows of the pending store; the spec treats a stale id as a
benign no-op). -/
def confirmStep (st : AppState) (idx : ℕ) (current : String) : AppState :=
  match st.pending.find? (fun e => e.1 == idx) with
  | none => st
  | some (_, row) =>
    let row' := if row.a == current then { row with confA := true } else { row with confB := true }
    let pend' := st.pending.map (fun e => if e.1 == idx then (idx, row') else e)
    if row'.confA && row'.confB then
      let hist' := st.matchHist ++ [toMatch row']
      { players := rebuild_players st.players hist'
        matchHist := hist'
        pending := pend'.filter (fun e => !(e.1 == idx)) }
    else
      { st with pending := pend' }

/-- Reject handler (`Ablehnen` button): drop the row from the pending
store, nothing else (`pending.drop(idx)`).  On a label that is absent
this leaves the store unchanged (the source only renders the button for
existing rows; the spec prescribes a benign no-op for a stale id). -/
def rejectStep (st : AppState) (idx : ℕ) : AppState :=
  { st with pending := st.pending.filter (fun e => !(e.1 == idx)) }

/-- The name column of a roster. -/
def NamesOf (ps : List Player) : List String :=
  ps.map (fun p => p.name)

theorem tReal_pos (d : ℤ) : 0 < tReal d :=
  Real.rpow_pos_of_pos (by norm_num) _

theorem one_add_tReal_pos (d : ℤ) : 0 < 1 + tReal d := by
  have := tReal_pos d; linarith

theorem expectedReal_pos (d : ℤ) : 0 < expectedReal d := by
  unfold expectedReal
  exact div_pos one_pos (one_add_tReal_pos d)

theorem expectedReal_lt_one (d : ℤ) : expectedReal d < 1 := by
  unfold expectedReal
  rw [div_lt_one (one_add_tReal_pos d)]
  have := tReal_pos d; linarith

theorem tReal_pow400 (d : ℤ) : tReal d ^ (400 : ℕ) = (10 : ℝ) ^ d := by
  unfold tReal
  rw [← Real.rpow_natCast ((10 : ℝ) ^ ((d : ℝ) / 400)) 400,
    ← Real.rpow_mul (by norm_num : (0 : ℝ) ≤ 10)]
  have h : (d : ℝ) / 400 * ((400 : ℕ) : ℝ) = ((d : ℤ) : ℝ) := by
    push_cast
    field_simp
  rw [h]
  exact Real.rpow_intCast 10 d

theorem icmp_eq_lt {x y : ℤ} (h : x < y) : icmp x y = .lt := by
  unfold icmp
  rw [if_pos h]

theorem icmp_eq_eq {x y : ℤ} (h : x = y) : icmp x y = .eq := by
  unfold icmp
  rw [if_neg (by omega), if_pos h]

theorem icmp_eq_gt {x y : ℤ} (h : y < x) : icmp x y = .gt := by
  unfold icmp
  rw [if_neg (by omega), if_neg (by omega)]

theorem ordRel_of_iff {x y : ℝ} {L R : ℤ} (h1 : x < y ↔ L < R) (h2 : x = y ↔ L = R) :
    OrdRel (icmp L R) x y := by
  rcases lt_trichotomy L R with h | h | h
  · rw [icmp_eq_lt h]
    exact h1.mpr h
  · rw [icmp_eq_eq h]
    exact h2.mpr h
  · rw [icmp_eq_gt h]
    rcases lt_trichotomy x y with hx | hx | hx
    · exact absurd (h1.mp hx) (by omega)
    · exact absurd (h2.mp hx) (by omega)
    · exact hx

theorem ordRel_tCmp2 {a b : ℤ} (d : ℤ) (ha : 0 < a) (hb : 0 < b) :
    OrdRel (tCmp2 d a b) (tReal d) ((a : ℝ) / b) := by
  have ha' : (0 : ℝ) < (a : ℝ) := by exact_mod_cast ha
  have hb' : (0 : ℝ) < (b : ℝ) := by exact_mod_cast hb
  have ht : (0 : ℝ) ≤ tReal d := (tReal_pos d).le
  have hab : (0 : ℝ) ≤ (a : ℝ) / b := by positivity
  have hbp : (0 : ℝ) < (b : ℝ) ^ (400 : ℕ) := by positivity
  have key_lt : tReal d < (a : ℝ) / b ↔ (10 : ℝ) ^ d * (b : ℝ) ^ (400 : ℕ) < (a : ℝ) ^ (400 : ℕ) := by
    rw [← pow_lt_pow_iff_left₀ ht hab (by norm_num : (400 : ℕ) ≠ 0), tReal_pow400, div_pow,
      lt_div_iff hbp]
  have key_eq : tReal d = (a : ℝ) / b ↔ (10 : ℝ) ^ d * (b : ℝ) ^ (400 : ℕ) = (a : ℝ) ^ (400 : ℕ) := by
    constructor
    · intro h
      rw [← tReal_pow400, h, div_pow]
      field_simp
    · intro h
      rcases lt_trichotomy (tReal d) ((a : ℝ) / b) with hx | hx | hx
      · exact absurd (key_lt.mp hx) (by rw [h]; exact lt_irrefl _)
      · exact hx
      · exfalso
        have h2 : (a : ℝ) / b < tReal d := hx
        have := (pow_lt_pow_iff_left₀ hab ht (by norm_num : (400 : ℕ) ≠ 0)).mpr h2
        rw [tReal_pow400, div_pow, div_lt_iff hbp] at this
        rw [h] at this
        exact lt_irrefl _ this
  unfold tCmp2
  by_cases hd : 0 ≤ d
  · rw [if_pos hd]
    have h10 : (10 : ℝ) ^ d = ((10 ^ d.toNat : ℤ) : ℝ) := by
      have h1 : (10 : ℝ) ^ d = (10 : ℝ) ^ (d.toNat : ℕ) := by
        rw [← zpow_natCast]
        congr 1
        omega
      rw [h1]
      push_cast
      ring
    refine ordRel_of_iff ?_ ?_
    · rw [key_lt, h10]
      constructor <;> intro h <;> exact_mod_cast h
    · rw [key_eq, h10]
      constructor <;> intro h <;> exact_mod_cast h
  · rw [if_neg hd]
    set M : ℝ := ((10 ^ (-d).toNat : ℤ) : ℝ) with hMdef
    have hM : (10 : ℝ) ^ d * M = 1 := by
      rw [hMdef]
      have h1 : ((10 ^ (-d).toNat : ℤ) : ℝ) = (10 : ℝ) ^ (((-d).toNat : ℕ) : ℤ) := by
        rw [zpow_natCast]
        push_cast
        ring
      rw [h1, show (((-d).toNat : ℕ) : ℤ) = -d from Int.toNat_of_nonneg (by omega),
        ← zpow_add₀ (by norm_num : (10 : ℝ) ≠ 0)]
      simp
    have hMpos : (0 : ℝ) < M := by rw [hMdef]; positivity
    have hdpos : (0 : ℝ) < (10 : ℝ) ^ d := by positivity
    have e1 : (10 : ℝ) ^ d * (b : ℝ) ^ (400 : ℕ) * M = (b : ℝ) ^ (400 : ℕ) := by
      rw [show (10 : ℝ) ^ d * (b : ℝ) ^ (400 : ℕ) * M = (10 : ℝ) ^ d * M * (b : ℝ) ^ (400 : ℕ)
        from by ring, hM, one_mul]
    have e2 : (10 : ℝ) ^ d * (M * (a : ℝ) ^ (400 : ℕ)) = (a : ℝ) ^ (400 : ℕ) := by
      rw [show (10 : ℝ) ^ d * (M * (a : ℝ) ^ (400 : ℕ)) = (10 : ℝ) ^ d * M * (a : ℝ) ^ (400 : ℕ)
        from by ring, hM, one_mul]
    refine ordRel_of_iff ?_ ?_
    · rw [key_lt]
      constructor
      · intro h
        have h2 := mul_lt_mul_of_pos_right h hMpos
        rw [e1] at h2
        have h3 : (b : ℝ) ^ (400 : ℕ) < M * (a : ℝ) ^ (400 : ℕ) := by linarith
        rw [hMdef] at h3
        exact_mod_cast h3
      · intro h
        have h3 : (b : ℝ) ^ (400 : ℕ) < M * (a : ℝ) ^ (400 : ℕ) := by
          rw [hMdef]
          exact_mod_cast h
        have h2 := mul_lt_mul_of_pos_left h3 hdpos
        rw [e2] at h2
        linarith [e1]
    · rw [key_eq]
      constructor
      · intro h
        have h2 : (10 : ℝ) ^ d * (b : ℝ) ^ (400 : ℕ) * M = (a : ℝ) ^ (400 : ℕ) * M := by rw [h]
        rw [e1] at h2
        have h3 : (b : ℝ) ^ (400 : ℕ) = M * (a : ℝ) ^ (400 : ℕ) := by linarith
        rw [hMdef] at h3
        exact_mod_cast h3
      · intro h
        have h3 : (b : ℝ) ^ (400 : ℕ) = M * (a : ℝ) ^ (400 : ℕ) := by
          rw [hMdef]
          exact_mod_cast h
        have h2 : (10 : ℝ) ^ d * (b : ℝ) ^ (400 : ℕ) = (10 : ℝ) ^ d * (M * (a : ℝ) ^ (400 : ℕ)) := by
          rw [h3]
        rw [e2] at h2
        exact h2

theorem keReal_lt_half_iff {k j2 : ℤ} (d : ℤ) (hk : 0 < k) (h0 : 0 < j2) (h2 : j2 < 2 * k) :
    keReal k d < (j2 : ℝ) / 2 ↔ ((2 * k - j2 : ℤ) : ℝ) / (j2 : ℝ) < tReal d := by
  unfold keReal expectedReal
  have h1T := one_add_tReal_pos d
  have hj : (0 : ℝ) < (j2 : ℝ) := by exact_mod_cast h0
  rw [mul_one_div, div_lt_div_iff h1T (by norm_num : (0 : ℝ) < 2), div_lt_iff hj]
  push_cast
  constructor <;> intro h <;> nlinarith

theorem keReal_eq_half_iff {k j2 : ℤ} (d : ℤ) (hk : 0 < k) (h0 : 0 < j2) (h2 : j2 < 2 * k) :
    keReal k d = (j2 : ℝ) / 2 ↔ ((2 * k - j2 : ℤ) : ℝ) / (j2 : ℝ) = tReal d := by
  unfold keReal expectedReal
  have h1T := one_add_tReal_pos d
  have hj : (0 : ℝ) < (j2 : ℝ) := by exact_mod_cast h0
  rw [mul_one_div, div_eq_div_iff h1T.ne' (by norm_num : (2 : ℝ) ≠ 0), div_eq_iff hj.ne']
  push_cast
  constructor <;> intro h <;> nlinarith

theorem ordRel_keCmpPos {k : ℤ} (d j2 : ℤ) (hk : 0 < k) :
    OrdRel (keCmpPos k d j2) (keReal k d) ((j2 : ℝ) / 2) := by
  have hkR : (0 : ℝ) < (k : ℝ) := by exact_mod_cast hk
  have hep := expectedReal_pos d
  have hel := expectedReal_lt_one d
  have hkepos : 0 < keReal k d := mul_pos hkR hep
  have hkelt : keReal k d < (k : ℝ) := by
    unfold keReal
    nlinarith
  unfold keCmpPos
  by_cases h0 : j2 ≤ 0
  · rw [if_pos h0]
    show (j2 : ℝ) / 2 < keReal k d
    have : (j2 : ℝ) ≤ 0 := by exact_mod_cast h0
    linarith
  · rw [if_neg h0]
    by_cases h2 : 2 * k ≤ j2
    · rw [if_pos h2]
      show keReal k d < (j2 : ℝ) / 2
      have : (2 * (k : ℝ)) ≤ (j2 : ℝ) := by exact_mod_cast h2
      linarith
    · rw [if_neg h2]
      push_neg at h0 h2
      have hlt := keReal_lt_half_iff d hk h0 h2
      have heq := keReal_eq_half_iff d hk h0 h2
      have R := ordRel_tCmp2 d (show (0 : ℤ) < 2 * k - j2 by omega) h0
      cases htc : tCmp2 d (2 * k - j2) j2 <;> rw [htc] at R
      · show (j2 : ℝ) / 2 < keReal k d
        have hTq : tReal d < ((2 * k - j2 : ℤ) : ℝ) / (j2 : ℝ) := R
        rcases lt_trichotomy (keReal k d) ((j2 : ℝ) / 2) with hx | hx | hx
        · exact absurd (hlt.mp hx) (by linarith)
        · exact absurd ((heq.mp hx).symm) (by intro hcon; rw [hcon] at hTq; exact lt_irrefl _ hTq)
        · exact hx
      · show keReal k d = (j2 : ℝ) / 2
        have hTq : tReal d = ((2 * k - j2 : ℤ) : ℝ) / (j2 : ℝ) := R
        exact heq.mpr hTq.symm
      · show keReal k d < (j2 : ℝ) / 2
        exact hlt.mpr R

theorem keReal_neg_left (k d : ℤ) : keReal (-k) d = -keReal k d := by
  unfold keReal
  push_cast
  ring

theorem ordRel_swap_neg {o : Ordering} {x y : ℝ} (h : OrdRel o (-x) (-y)) :
    OrdRel o.swap x y := by
  cases o
  · show y < x
    have h2 : -x < -y := h
    linarith
  · show x = y
    have h2 : -x = -y := h
    linarith
  · show x < y
    have h2 : -y < -x := h
    linarith

theorem ordRel_keCmp (k d j2 : ℤ) :
    OrdRel (keCmp k d j2) (keReal k d) ((j2 : ℝ) / 2) := by
  unfold keCmp
  by_cases hk : 0 < k
  · rw [if_pos hk]
    exact ordRel_keCmpPos d j2 hk
  · rw [if_neg hk]
    by_cases hk0 : k = 0
    · rw [if_pos hk0]
      subst hk0
      have hz : keReal 0 d = 0 := by
        unfold keReal
        push_cast
        ring
      rw [hz]
      refine ordRel_of_iff ?_ ?_
      · constructor
        · intro h
          have : (0 : ℝ) < (j2 : ℝ) := by linarith
          exact_mod_cast this
        · intro h
          have : (0 : ℝ) < (j2 : ℝ) := by exact_mod_cast h
          linarith
      · constructor
        · intro h
          have : (0 : ℝ) = (j2 : ℝ) := by linarith
          exact_mod_cast this
        · intro h
          have : (0 : ℝ) = (j2 : ℝ) := by exact_mod_cast h
          linarith
    · rw [if_neg hk0]
      have hkn : 0 < -k := by omega
      have R := ordRel_keCmpPos d (-j2) hkn
      rw [keReal_neg_left] at R
      have hj : ((-j2 : ℤ) : ℝ) / 2 = -((j2 : ℝ) / 2) := by
        push_cast
        ring
      rw [hj] at R
      exact ordRel_swap_neg R

theorem scanCeil_spec (k d : ℤ) (fuel : ℕ) :
    ∀ j : ℤ, (j : ℝ) - 1 < keReal k d → keReal k d ≤ (j : ℝ) + (fuel : ℝ) →
    ((scanCeil k d fuel j : ℤ) : ℝ) - 1 < keReal k d ∧
      keReal k d ≤ ((scanCeil k d fuel j : ℤ) : ℝ) := by
  induction fuel with
  | zero =>
    intro j h1 h2
    simp only [scanCeil]
    refine ⟨h1, ?_⟩
    simpa using h2
  | succ fuel ih =>
    intro j h1 h2
    have R := ordRel_keCmp k d (2 * j)
    have h2j : (((2 * j : ℤ)) : ℝ) / 2 = (j : ℝ) := by
      push_cast
      ring
    rw [h2j] at R
    simp only [scanCeil]
    split
    · rename_i heq
      rw [heq] at R
      have hR : (j : ℝ) < keReal k d := R
      apply ih (j + 1)
      · push_cast
        linarith
      · push_cast at h2 ⊢
        linarith
    · rename_i heq
      rw [heq] at R
      exact ⟨h1, R.le⟩
    · rename_i heq
      rw [heq] at R
      exact ⟨h1, le_of_eq R⟩

theorem keReal_bounds_pos {k : ℤ} (d : ℤ) (hk : 0 < k) :
    0 < keReal k d ∧ keReal k d < (k : ℝ) := by
  have hkR : (0 : ℝ) < (k : ℝ) := by exact_mod_cast hk
  have hep := expectedReal_pos d
  have hel := expectedReal_lt_one d
  constructor
  · exact mul_pos hkR hep
  · unfold keReal
    nlinarith

theorem ceilKE_spec (k d : ℤ) :
    ((ceilKE k d : ℤ) : ℝ) - 1 < keReal k d ∧ keReal k d ≤ ((ceilKE k d : ℤ) : ℝ) := by
  unfold ceilKE
  by_cases hk : 0 < k
  · rw [if_pos hk]
    obtain ⟨hpos, hlt⟩ := keReal_bounds_pos d hk
    have htn : ((k.toNat : ℕ) : ℝ) = (k : ℝ) := by
      have h1 : ((k.toNat : ℕ) : ℤ) = k := Int.toNat_of_nonneg hk.le
      exact_mod_cast h1
    apply scanCeil_spec
    · push_cast
      linarith
    · push_cast
      rw [htn]
      linarith
  · rw [if_neg hk]
    by_cases hk0 : k = 0
    · rw [if_pos hk0]
      subst hk0
      have hz : keReal 0 d = 0 := by
        unfold keReal
        push_cast
        ring
      rw [hz]
      norm_num
    · rw [if_neg hk0]
      have hkneg : k < 0 := by omega
      have hkR : (k : ℝ) < 0 := by exact_mod_cast hkneg
      have hep := expectedReal_pos d
      have hel := expectedReal_lt_one d
      have hneg1 : (k : ℝ) < keReal k d := by
        unfold keReal
        nlinarith
      have hneg2 : keReal k d < 0 := by
        unfold keReal
        nlinarith
      have htn : (((-k).toNat : ℕ) : ℝ) = -(k : ℝ) := by
        have h1 : (((-k).toNat : ℕ) : ℤ) = -k := Int.toNat_of_nonneg (by omega)
        exact_mod_cast h1
      apply scanCeil_spec
      · push_cast
        linarith
      · push_cast
        rw [htn]
        linarith

theorem eloReal_eq (r_a r_b score_a k : ℤ) :
    eloReal r_a r_b score_a k = ((r_a + k * score_a : ℤ) : ℝ) - keReal k (r_b - r_a) := by
  unfold eloReal keReal
  push_cast
  ring

/-- Main correctness of the exact implementation: `calc_elo` is the
round-half-to-even of the real ELO formula, for all integer inputs. -/
theorem calc_elo_isRound (r_a r_b score_a k : ℤ) :
    IsRoundHalfEven (eloReal r_a r_b score_a k) (calc_elo r_a r_b score_a k) := by
  rw [eloReal_eq]
  obtain ⟨hc1, hc2⟩ := ceilKE_spec k (r_b - r_a)
  have R := ordRel_keCmp k (r_b - r_a) (2 * ceilKE k (r_b - r_a) - 1)
  have hq : ((2 * ceilKE k (r_b - r_a) - 1 : ℤ) : ℝ) / 2 =
      ((ceilKE k (r_b - r_a) : ℤ) : ℝ) - 1 / 2 := by
    push_cast
    ring
  rw [hq] at R
  simp only [calc_elo]
  split
  · rename_i heq
    rw [heq] at R
    have hR : ((ceilKE k (r_b - r_a) : ℤ) : ℝ) - 1 / 2 < keReal k (r_b - r_a) := R
    left
    rw [abs_lt]
    constructor <;> push_cast <;> linarith
  · rename_i heq
    rw [heq] at R
    have hR : keReal k (r_b - r_a) < ((ceilKE k (r_b - r_a) : ℤ) : ℝ) - 1 / 2 := R
    left
    rw [abs_lt]
    constructor <;> push_cast <;> linarith
  · rename_i heq
    rw [heq] at R
    have hR : keReal k (r_b - r_a) = ((ceilKE k (r_b - r_a) : ℤ) : ℝ) - 1 / 2 := R
    split
    · rename_i hpar
      right
      refine ⟨?_, hpar⟩
      rw [abs_eq (by norm_num : (0 : ℝ) ≤ 1 / 2)]
      left
      push_cast
      rw [hR]
      ring
    · rename_i hpar
      right
      constructor
      · rw [abs_eq (by norm_num : (0 : ℝ) ≤ 1 / 2)]
        right
        push_cast
        rw [hR]
        ring
      · omega

/-- Round-half-to-even of a real number is unique. -/
theorem isRoundHalfEven_unique {x : ℝ} {n n' : ℤ} (h : IsRoundHalfEven x n)
    (h' : IsRoundHalfEven x n') : n = n' := by
  have hb1 : |x - (n : ℝ)| ≤ 1 / 2 := by
    rcases h with hs | ⟨he, _⟩
    exacts [hs.le, he.le]
  have hb2 : |x - (n' : ℝ)| ≤ 1 / 2 := by
    rcases h' with hs | ⟨he, _⟩
    exacts [hs.le, he.le]
  obtain ⟨ha1, ha2⟩ := abs_le.mp hb1
  obtain ⟨hc1, hc2⟩ := abs_le.mp hb2
  have hz1 : (-1 : ℤ) ≤ n - n' := by
    have hr : (-1 : ℝ) ≤ ((n - n' : ℤ) : ℝ) := by
      push_cast
      linarith
    exact_mod_cast hr
  have hz2 : n - n' ≤ 1 := by
    have hr : ((n - n' : ℤ) : ℝ) ≤ 1 := by
      push_cast
      linarith
    exact_mod_cast hr
  rcases h with hs | ⟨he, hp⟩ <;> rcases h' with hs' | ⟨he', hp'⟩
  · obtain ⟨hd1, hd2⟩ := abs_lt.mp hs
    have hw1 : (-1 : ℤ) < n - n' := by
      have hr : (-1 : ℝ) < ((n - n' : ℤ) : ℝ) := by
        push_cast
        linarith
      exact_mod_cast hr
    have hw2 : n - n' < 1 := by
      have hr : ((n - n' : ℤ) : ℝ) < 1 := by
        push_cast
        linarith
      exact_mod_cast hr
    omega
  · obtain ⟨hd1, hd2⟩ := abs_lt.mp hs
    have hw1 : (-1 : ℤ) < n - n' := by
      have hr : (-1 : ℝ) < ((n - n' : ℤ) : ℝ) := by
        push_cast
        linarith
      exact_mod_cast hr
    have hw2 : n - n' < 1 := by
      have hr : ((n - n' : ℤ) : ℝ) < 1 := by
        push_cast
        linarith
      exact_mod_cast hr
    omega
  · obtain ⟨hd1, hd2⟩ := abs_lt.mp hs'
    have hw1 : (-1 : ℤ) < n - n' := by
      have hr : (-1 : ℝ) < ((n - n' : ℤ) : ℝ) := by
        push_cast
        linarith
      exact_mod_cast hr
    have hw2 : n - n' < 1 := by
      have hr : ((n - n' : ℤ) : ℝ) < 1 := by
        push_cast
        linarith
      exact_mod_cast hr
    omega
  · omega

set_option maxRecDepth 1000000

/-- C1: for all integer ratings and scores, `calc_elo` returns the
round-half-to-even of `r_a + k * (score_a - expectedA)` with
`expectedA = 1 / (1 + 10 ^ ((r_b - r_a) / 400))`; in particular with both
ratings 1200 and k = 32 the winner's new rating is 1216 and the loser's
is 1184. -/
theorem C1_calc_elo_rounds_real_formula :
    (∀ r_a r_b score_a k : ℤ,
        IsRoundHalfEven (eloReal r_a r_b score_a k) (calc_elo r_a r_b score_a k))
    ∧ calc_elo 1200 1200 1 32 = 1216 ∧ calc_elo 1200 1200 0 32 = 1184 :=
  ⟨calc_elo_isRound, by decide, by decide⟩

theorem setPair_fst (nm : String) (v : ℤ) (e : String × ℤ) : (setPair nm v e).1 = e.1 := by
  unfold setPair
  by_cases hb : e.1 == nm
  · simp only [if_pos hb]
    exact (beq_iff_eq.mp hb).symm
  · simp only [if_neg hb]

theorem comp_setPair (nm : String) (v : ℤ) (nm' : String) :
    ((fun e : String × ℤ => e.1 == nm') ∘ setPair nm v) = (fun e : String × ℤ => e.1 == nm') := by
  funext e
  simp [Function.comp, setPair_fst]

theorem rlookup_map_setPair (rts : List (String × ℤ)) (nm : String) (v : ℤ) (nm' : String) :
    rlookup (rts.map (setPair nm v)) nm' =
      (rts.find? (fun e => e.1 == nm')).map (fun e => (setPair nm v e).2) := by
  unfold rlookup
  rw [List.find?_map, comp_setPair, Option.map_map]
  rfl

theorem rlookup_rassign_self (rts : List (String × ℤ)) (nm : String) (v : ℤ) :
    rlookup (rassign rts nm v) nm = some v := by
  unfold rassign
  split
  · rename_i x heq
    rw [rlookup_map_setPair]
    unfold rlookup at heq
    cases hf : rts.find? (fun e => e.1 == nm) with
    | none =>
      rw [hf] at heq
      simp at heq
    | some e0 =>
      have hb := List.find?_some hf
      simp only [Option.map_some']
      unfold setPair
      rw [if_pos hb]
  · rename_i heq
    unfold rlookup at heq ⊢
    cases hf : rts.find? (fun e => e.1 == nm) with
    | none =>
      rw [List.find?_append, hf]
      simp
    | some e0 =>
      rw [hf] at heq
      simp at heq

theorem rlookup_rassign_ne (rts : List (String × ℤ)) {nm nm' : String} (v : ℤ)
    (h : nm' ≠ nm) : rlookup (rassign rts nm v) nm' = rlookup rts nm' := by
  unfold rassign
  split
  · rename_i x heq
    rw [rlookup_map_setPair]
    unfold rlookup
    cases hf : rts.find? (fun e => e.1 == nm') with
    | none => simp
    | some e0 =>
      have hb := List.find?_some hf
      simp only [Option.map_some']
      unfold setPair
      have hne : ¬ (e0.1 == nm) := by
        intro hcon
        have h1 : e0.1 = nm := beq_iff_eq.mp hcon
        have h2 : e0.1 = nm' := beq_iff_eq.mp hb
        exact h (h2 ▸ h1 ▸ rfl)
      rw [if_neg hne]
  · rename_i heq
    unfold rlookup
    rw [List.find?_append]
    cases hf : rts.find? (fun e => e.1 == nm') with
    | none =>
      have hs : ([((nm : String), v)].find? (fun e => e.1 == nm')) = none := by
        have : ¬ (((nm, v) : String × ℤ).1 == nm') := by
          intro hcon
          exact h (beq_iff_eq.mp hcon).symm
        simp [List.find?, this]
      rw [hs]
      simp
    | some e0 =>
      simp

theorem rlookup_rsetdefault_self (rts : List (String × ℤ)) (nm : String) :
    rlookup (rsetdefault rts nm) nm = some ((rlookup rts nm).getD 1200) := by
  unfold rsetdefault
  split
  · rename_i x heq
    rw [heq]
    rfl
  · rename_i heq
    rw [heq]
    unfold rlookup at heq ⊢
    rw [List.find?_append]
    cases hf : rts.find? (fun e => e.1 == nm) with
    | none => simp
    | some e0 =>
      rw [hf] at heq
      simp at heq

theorem rlookup_rsetdefault_ne (rts : List (String × ℤ)) {nm nm' : String}
    (h : nm' ≠ nm) : rlookup (rsetdefault rts nm) nm' = rlookup rts nm' := by
  unfold rsetdefault
  split
  · rfl
  · unfold rlookup
    rw [List.find?_append]
    cases hf : rts.find? (fun e => e.1 == nm') with
    | none =>
      have hs : ([((nm : String), (1200 : ℤ))].find? (fun e => e.1 == nm')) = none := by
        have : ¬ (((nm, (1200 : ℤ)) : String × ℤ).1 == nm') := by
          intro hcon
          exact h (beq_iff_eq.mp hcon).symm
        simp [List.find?, this]
      rw [hs]
      simp
    | some e0 =>
      simp

theorem applyUpdate_name (nm : String) (v w l : ℤ) (p0 p : Player) :
    (applyUpdate nm v w l p0 p).name = p.name := by
  unfold applyUpdate
  by_cases hb : p.name == nm
  · rw [if_pos hb]
  · rw [if_neg hb]

theorem comp_applyUpdate (nm : String) (v w l : ℤ) (p0 : Player) (nm' : String) :
    ((fun p : Player => p.name == nm') ∘ applyUpdate nm v w l p0) =
      (fun p : Player => p.name == nm') := by
  funext p
  simp [Function.comp, applyUpdate_name]

theorem findRow_map_applyUpdate (ps : List Player) (nm : String) (v w l : ℤ) (p0 : Player)
    (nm' : String) :
    findRow (ps.map (applyUpdate nm v w l p0)) nm' =
      (findRow ps nm').map (applyUpdate nm v w l p0) := by
  unfold findRow
  rw [List.find?_map, comp_applyUpdate]

theorem namesOf_map_applyUpdate (ps : List Player) (nm : String) (v w l : ℤ) (p0 : Player) :
    NamesOf (ps.map (applyUpdate nm v w l p0)) = NamesOf ps := by
  unfold NamesOf
  rw [List.map_map]
  apply List.map_congr_left
  intro p hp
  exact applyUpdate_name nm v w l p0 p

theorem updateRows_namesOf (ps : List Player) (nm : String) (v w l : ℤ) :
    NamesOf (updateRows ps nm v w l) = NamesOf ps := by
  unfold updateRows
  split
  · rfl
  · apply namesOf_map_applyUpdate

theorem findRow_isSome_iff (ps : List Player) (nm : String) :
    (findRow ps nm).isSome ↔ nm ∈ NamesOf ps := by
  unfold findRow NamesOf
  rw [List.find?_isSome]
  simp [List.mem_map, beq_iff_eq]

theorem findRow_some_name {ps : List Player} {nm : String} {p : Player}
    (h : findRow ps nm = some p) : (p.name == nm) = true := by
  unfold findRow at h
  have h2 := List.find?_some h
  simpa using h2

theorem rosterElo_updateRows_self (ps : List Player) (nm : String) (v w l : ℤ)
    (h : nm ∈ NamesOf ps) : rosterElo (updateRows ps nm v w l) nm = v := by
  have hs : (findRow ps nm).isSome := (findRow_isSome_iff ps nm).mpr h
  unfold updateRows
  split
  · rename_i heq
    rw [heq] at hs
    simp at hs
  · rename_i p0 heq
    have hb := findRow_some_name heq
    unfold rosterElo
    rw [findRow_map_applyUpdate, heq]
    show (applyUpdate nm v w l p0 p0).elo = v
    unfold applyUpdate
    rw [if_pos hb]

theorem rosterElo_updateRows_ne (ps : List Player) {nm nm' : String} (v w l : ℤ)
    (h : nm' ≠ nm) : rosterElo (updateRows ps nm v w l) nm' = rosterElo ps nm' := by
  unfold updateRows
  split
  · rfl
  · rename_i p0 heq
    unfold rosterElo
    rw [findRow_map_applyUpdate]
    cases hg : findRow ps nm' with
    | none => rfl
    | some p1 =>
      have hb := findRow_some_name hg
      have hne : ¬ (p1.name == nm) = true := by
        intro hcon
        have h1 : p1.name = nm := beq_iff_eq.mp hcon
        have h2 : p1.name = nm' := beq_iff_eq.mp hb
        exact h (h2 ▸ h1 ▸ rfl)
      show (applyUpdate nm v w l p0 p1).elo = p1.elo
      unfold applyUpdate
      rw [if_neg hne]

theorem findRow_updateRows_isSome (ps : List Player) (nm : String) (v w l : ℤ) (nm' : String) :
    (findRow (updateRows ps nm v w l) nm').isSome = (findRow ps nm').isSome := by
  unfold updateRows
  split
  · rfl
  · rw [findRow_map_applyUpdate]
    cases findRow ps nm' <;> rfl

theorem findRow_eq_none_of_not_mem {ps : List Player} {nm : String} (h : nm ∉ NamesOf ps) :
    findRow ps nm = none := by
  cases hf : findRow ps nm with
  | none => rfl
  | some p =>
    exfalso
    apply h
    apply (findRow_isSome_iff ps nm).mp
    rw [hf]
    rfl

/-- A match with a participant missing from the roster is skipped by the
replay loop: the roster is returned unchanged. -/
theorem replayStep_skip {k : ℤ} {ps : List Player} {m : Match}
    (h : m.a ∉ NamesOf ps ∨ m.b ∉ NamesOf ps) : replayStep k ps m = ps := by
  unfold replayStep
  rcases h with h | h
  · rw [findRow_eq_none_of_not_mem h]
    simp
  · rw [findRow_eq_none_of_not_mem h]
    simp

theorem replayStep_present (k : ℤ) {ps : List Player} {m : Match}
    (ha : m.a ∈ NamesOf ps) (hb : m.b ∈ NamesOf ps) :
    replayStep k ps m =
      updateRows
        (updateRows ps m.a (calc_elo (rosterElo ps m.a) (rosterElo ps m.b) (scoreA m) k)
          (scoreA m) (1 - scoreA m))
        m.b (calc_elo (rosterElo ps m.b) (rosterElo ps m.a) (1 - scoreA m) k)
        (1 - scoreA m) (scoreA m) := by
  obtain ⟨pa, hpa⟩ := Option.isSome_iff_exists.mp ((findRow_isSome_iff ps m.a).mpr ha)
  obtain ⟨pb, hpb⟩ := Option.isSome_iff_exists.mp ((findRow_isSome_iff ps m.b).mpr hb)
  unfold replayStep
  rw [hpa, hpb, if_neg (by simp)]

theorem histStep_eq (player : String) (k : ℤ) (rts : List (String × ℤ))
    (hist : List (ℤ × ℤ)) {m : Match} (hab : m.a ≠ m.b) :
    histStep player k (rts, hist) m =
      (rassign
        (rassign (rsetdefault (rsetdefault rts m.a) m.b) m.a
          (calc_elo ((rlookup rts m.a).getD 1200) ((rlookup rts m.b).getD 1200) (scoreA m) k))
        m.b
        (calc_elo ((rlookup rts m.b).getD 1200) ((rlookup rts m.a).getD 1200) (1 - scoreA m) k),
       if m.a == player then
         hist ++ [(m.datum,
           calc_elo ((rlookup rts m.a).getD 1200) ((rlookup rts m.b).getD 1200) (scoreA m) k)]
       else if m.b == player then
         hist ++ [(m.datum,
           calc_elo ((rlookup rts m.b).getD 1200) ((rlookup rts m.a).getD 1200) (1 - scoreA m) k)]
       else hist) := by
  have h1 : rlookup (rsetdefault (rsetdefault rts m.a) m.b) m.a
      = some ((rlookup rts m.a).getD 1200) := by
    rw [rlookup_rsetdefault_ne _ hab, rlookup_rsetdefault_self]
  have h2 : rlookup (rsetdefault (rsetdefault rts m.a) m.b) m.b
      = some ((rlookup rts m.b).getD 1200) := by
    rw [rlookup_rsetdefault_self, rlookup_rsetdefault_ne _ (Ne.symm hab)]
  unfold histStep
  simp only [h1, h2, Option.getD_some]

theorem step_invariant (player : String) (k : ℤ) (ps : List Player)
    (rts : List (String × ℤ)) (hist : List (ℤ × ℤ)) (m : Match)
    (hab : m.a ≠ m.b) (haN : m.a ∈ NamesOf ps) (hbN : m.b ∈ NamesOf ps)
    (inv1 : ∀ nm ∈ NamesOf ps, rosterElo ps nm = (rlookup rts nm).getD 1200)
    (inv3 : hist.getLast?.map (fun e => e.2) = rlookup rts player) :
    NamesOf (replayStep k ps m) = NamesOf ps
    ∧ (∀ nm ∈ NamesOf ps,
        rosterElo (replayStep k ps m) nm =
          (rlookup (histStep player k (rts, hist) m).1 nm).getD 1200)
    ∧ ((histStep player k (rts, hist) m).2.getLast?.map (fun e => e.2) =
        rlookup (histStep player k (rts, hist) m).1 player)
    ∧ ((rlookup rts player).isSome →
        (rlookup (histStep player k (rts, hist) m).1 player).isSome)
    ∧ ((m.a = player ∨ m.b = player) →
        (rlookup (histStep player k (rts, hist) m).1 player).isSome) := by
  have hra : (rlookup rts m.a).getD 1200 = rosterElo ps m.a := (inv1 m.a haN).symm
  have hrb : (rlookup rts m.b).getD 1200 = rosterElo ps m.b := (inv1 m.b hbN).symm
  have hrepl := replayStep_present k haN hbN
  have hhist := histStep_eq player k rts hist hab
  rw [hra, hrb] at hhist
  set nra := calc_elo (rosterElo ps m.a) (rosterElo ps m.b) (scoreA m) k with hnra
  set nrb := calc_elo (rosterElo ps m.b) (rosterElo ps m.a) (1 - scoreA m) k with hnrb
  set RTS := rsetdefault (rsetdefault rts m.a) m.b with hRTS
  have hfst : (histStep player k (rts, hist) m).1 = rassign (rassign RTS m.a nra) m.b nrb := by
    rw [hhist]
  have hsnd : (histStep player k (rts, hist) m).2 =
      (if m.a == player then hist ++ [(m.datum, nra)]
       else if m.b == player then hist ++ [(m.datum, nrb)]
       else hist) := by
    rw [hhist]
  have fact_a : rlookup (rassign (rassign RTS m.a nra) m.b nrb) m.a = some nra := by
    rw [rlookup_rassign_ne _ _ hab, rlookup_rassign_self]
  have fact_b : rlookup (rassign (rassign RTS m.a nra) m.b nrb) m.b = some nrb :=
    rlookup_rassign_self _ _ _
  have fact_other : ∀ nm, nm ≠ m.a → nm ≠ m.b →
      rlookup (rassign (rassign RTS m.a nra) m.b nrb) nm = rlookup rts nm := by
    intro nm hna hnb
    rw [rlookup_rassign_ne _ _ hnb, rlookup_rassign_ne _ _ hna, hRTS,
      rlookup_rsetdefault_ne _ hnb, rlookup_rsetdefault_ne _ hna]
  have hN1 : NamesOf (updateRows ps m.a nra (scoreA m) (1 - scoreA m)) = NamesOf ps :=
    updateRows_namesOf ps m.a nra (scoreA m) (1 - scoreA m)
  have hnames : NamesOf (replayStep k ps m) = NamesOf ps := by
    rw [hrepl, updateRows_namesOf, hN1]
  have roster_a : rosterElo (replayStep k ps m) m.a = nra := by
    rw [hrepl, rosterElo_updateRows_ne _ _ _ _ hab, rosterElo_updateRows_self _ _ _ _ _ haN]
  have roster_b : rosterElo (replayStep k ps m) m.b = nrb := by
    rw [hrepl, rosterElo_updateRows_self]
    rw [hN1]
    exact hbN
  have roster_other : ∀ nm, nm ≠ m.a → nm ≠ m.b →
      rosterElo (replayStep k ps m) nm = rosterElo ps nm := by
    intro nm hna hnb
    rw [hrepl, rosterElo_updateRows_ne _ _ _ _ hnb, rosterElo_updateRows_ne _ _ _ _ hna]
  refine ⟨hnames, ?_, ?_, ?_, ?_⟩
  · intro nm hnm
    rw [hfst]
    by_cases hb2 : nm = m.b
    · subst hb2
      rw [roster_b, fact_b]
      rfl
    · by_cases ha2 : nm = m.a
      · subst ha2
        rw [roster_a, fact_a]
        rfl
      · rw [roster_other nm ha2 hb2, fact_other nm ha2 hb2]
        exact inv1 nm hnm
  · rw [hfst, hsnd]
    by_cases hpa : m.a = player
    · have hba : (m.a == player) = true := beq_iff_eq.mpr hpa
      rw [if_pos hba, List.getLast?_concat]
      subst hpa
      rw [fact_a]
      rfl
    · have hba : ¬ ((m.a == player) = true) := by
        intro hcon
        exact hpa (beq_iff_eq.mp hcon)
      rw [if_neg hba]
      by_cases hpb : m.b = player
      · have hbb : (m.b == player) = true := beq_iff_eq.mpr hpb
        rw [if_pos hbb, List.getLast?_concat]
        subst hpb
        rw [fact_b]
        rfl
      · have hbb : ¬ ((m.b == player) = true) := by
          intro hcon
          exact hpb (beq_iff_eq.mp hcon)
        rw [if_neg hbb]
        rw [fact_other player (fun h => hpa h.symm) (fun h => hpb h.symm)]
        exact inv3
  · intro hsome
    rw [hfst]
    by_cases hpa : player = m.a
    · subst hpa
      rw [fact_a]
      rfl
    · by_cases hpb : player = m.b
      · subst hpb
        rw [fact_b]
        rfl
      · rw [fact_other player hpa hpb]
        exact hsome
  · intro hinv
    rw [hfst]
    rcases hinv with hpa | hpb
    · subst hpa
      by_cases hpb : m.a = m.b
      · exact absurd hpb hab
      · rw [rlookup_rassign_ne _ _ hab, rlookup_rassign_self]
        rfl
    · subst hpb
      rw [fact_b]
      rfl

theorem replay_hist_invariant (player : String) (k : ℤ) :
    ∀ (L : List Match) (ps : List Player) (rts : List (String × ℤ)) (hist : List (ℤ × ℤ)),
      (∀ m ∈ L, m.a ≠ m.b ∧ m.a ∈ NamesOf ps ∧ m.b ∈ NamesOf ps) →
      (∀ nm ∈ NamesOf ps, rosterElo ps nm = (rlookup rts nm).getD 1200) →
      hist.getLast?.map (fun e => e.2) = rlookup rts player →
      NamesOf (L.foldl (replayStep k) ps) = NamesOf ps
      ∧ (∀ nm ∈ NamesOf ps,
          rosterElo (L.foldl (replayStep k) ps) nm =
            (rlookup (L.foldl (histStep player k) (rts, hist)).1 nm).getD 1200)
      ∧ ((L.foldl (histStep player k) (rts, hist)).2.getLast?.map (fun e => e.2) =
          rlookup (L.foldl (histStep player k) (rts, hist)).1 player)
      ∧ ((rlookup rts player).isSome →
          (rlookup (L.foldl (histStep player k) (rts, hist)).1 player).isSome)
      ∧ ((∃ m ∈ L, m.a = player ∨ m.b = player) →
          (rlookup (L.foldl (histStep player k) (rts, hist)).1 player).isSome) := by
  intro L
  induction L with
  | nil =>
    intro ps rts hist hgood inv1 inv3
    refine ⟨rfl, ?_, inv3, fun h => h, ?_⟩
    · intro nm h
      exact inv1 nm h
    · rintro ⟨m, hm, _⟩
      exact absurd hm (List.not_mem_nil m)
  | cons m L ih =>
    intro ps rts hist hgood inv1 inv3
    simp only [List.foldl_cons]
    obtain ⟨hab, haN, hbN⟩ := hgood m (List.mem_cons_self m L)
    obtain ⟨s_names, s_inv1, s_inv3, s_mono, s_part⟩ :=
      step_invariant player k ps rts hist m hab haN hbN inv1 inv3
    have hgood1 : ∀ m' ∈ L, m'.a ≠ m'.b ∧ m'.a ∈ NamesOf (replayStep k ps m) ∧
        m'.b ∈ NamesOf (replayStep k ps m) := by
      intro m' hm'
      obtain ⟨h1, h2, h3⟩ := hgood m' (List.mem_cons_of_mem m hm')
      rw [s_names]
      exact ⟨h1, h2, h3⟩
    have inv1' : ∀ nm ∈ NamesOf (replayStep k ps m),
        rosterElo (replayStep k ps m) nm =
          (rlookup (histStep player k (rts, hist) m).1 nm).getD 1200 := by
      intro nm hnm
      rw [s_names] at hnm
      exact s_inv1 nm hnm
    obtain ⟨i_names, i_inv1, i_inv3, i_mono, i_part⟩ :=
      ih (replayStep k ps m) (histStep player k (rts, hist) m).1
        (histStep player k (rts, hist) m).2 hgood1 inv1' s_inv3
    refine ⟨?_, ?_, ?_, ?_, ?_⟩
    · rw [i_names, s_names]
    · intro nm hnm
      have hnm1 : nm ∈ NamesOf (replayStep k ps m) := by
        rw [s_names]
        exact hnm
      exact i_inv1 nm hnm1
    · exact i_inv3
    · intro hsome
      exact i_mono (s_mono hsome)
    · rintro ⟨m', hm', hor⟩
      rcases List.mem_cons.mp hm' with heq | hmem
      · subst heq
        exact i_mono (s_part hor)
      · exact i_part ⟨m', hmem, hor⟩

theorem namesOf_map_reset (ps : List Player) : NamesOf (ps.map resetPlayer) = NamesOf ps := by
  unfold NamesOf
  rw [List.map_map]
  rfl

theorem findRow_map_resetPlayer (ps : List Player) (nm : String) :
    findRow (ps.map resetPlayer) nm = (findRow ps nm).map resetPlayer := by
  unfold findRow
  rw [List.find?_map]
  rfl

theorem rosterElo_map_resetPlayer (ps : List Player) (nm : String) :
    rosterElo (ps.map resetPlayer) nm = 1200 := by
  unfold rosterElo
  rw [findRow_map_resetPlayer]
  cases findRow ps nm <;> rfl

theorem replayStep_namesOf (k : ℤ) (ps : List Player) (m : Match) :
    NamesOf (replayStep k ps m) = NamesOf ps := by
  unfold replayStep
  split
  · rfl
  · simp only [updateRows_namesOf]

theorem foldl_replay_namesOf (k : ℤ) : ∀ (L : List Match) (ps : List Player),
    NamesOf (L.foldl (replayStep k) ps) = NamesOf ps := by
  intro L
  induction L with
  | nil => intro ps; rfl
  | cons m L ih =>
    intro ps
    simp only [List.foldl_cons]
    rw [ih, replayStep_namesOf]

/-- C2 fails as stated: `elo_history` replays matches whose participants
were deleted from the roster, while `rebuild_players` skips them.  With a
roster containing only P and one match P vs the absent Q, the history
ends at 1216 but the rebuilt roster keeps P at 1200. -/
theorem C2_counterexample :
    ¬ ((elo_history "P" [⟨0, "P", "Q", 11, 0⟩] 32).getLast?.map (fun e => e.2) =
        some (rosterElo
          (rebuild_players [⟨"P", 1200, 0, 0, 0, ""⟩] [⟨0, "P", "Q", 11, 0⟩] 32) "P")) := by
  have hs : sortByDatum [⟨0, "P", "Q", 11, 0⟩] = [⟨0, "P", "Q", 11, 0⟩] := by
    unfold sortByDatum
    exact List.mergeSort_singleton _
  unfold elo_history rebuild_players
  rw [hs]
  decide

/-- C2 (amended): when every confirmed match pairs two distinct players
that are both present in the roster, and the tracked player takes part
in at least one match, the last entry of `elo_history` carries exactly
the rating that `rebuild_players` assigns to that player. -/
theorem C2_rating_history_matches_rebuild (players_df : List Player) (matches_df : List Match)
    (player : String) (k : ℤ)
    (hgood : ∀ m ∈ matches_df,
      m.a ≠ m.b ∧ m.a ∈ NamesOf players_df ∧ m.b ∈ NamesOf players_df)
    (hplays : ∃ m ∈ matches_df, m.a = player ∨ m.b = player) :
    (elo_history player matches_df k).getLast?.map (fun e => e.2) =
      some (rosterElo (rebuild_players players_df matches_df k) player) := by
  have hne : matches_df.isEmpty = false := by
    obtain ⟨m, hm, _⟩ := hplays
    cases matches_df
    · exact absurd hm (List.not_mem_nil m)
    · rfl
  have hmem_iff : ∀ m : Match, m ∈ sortByDatum matches_df ↔ m ∈ matches_df := by
    intro m
    unfold sortByDatum
    exact List.mem_mergeSort
  have hgoodL : ∀ m ∈ sortByDatum matches_df, m.a ≠ m.b ∧
      m.a ∈ NamesOf (players_df.map resetPlayer) ∧
      m.b ∈ NamesOf (players_df.map resetPlayer) := by
    intro m hm
    obtain ⟨h1, h2, h3⟩ := hgood m ((hmem_iff m).mp hm)
    rw [namesOf_map_reset]
    exact ⟨h1, h2, h3⟩
  have inv1_0 : ∀ nm ∈ NamesOf (players_df.map resetPlayer),
      rosterElo (players_df.map resetPlayer) nm = (rlookup [] nm).getD 1200 := by
    intro nm hnm
    rw [rosterElo_map_resetPlayer]
    rfl
  have inv3_0 : ([] : List (ℤ × ℤ)).getLast?.map (fun e => e.2) = rlookup [] player := rfl
  obtain ⟨Rnames, Rinv1, Rinv3, Rmono, Rpart⟩ :=
    replay_hist_invariant player k (sortByDatum matches_df) (players_df.map resetPlayer)
      [] [] hgoodL inv1_0 inv3_0
  have hpart : ∃ m ∈ sortByDatum matches_df, m.a = player ∨ m.b = player := by
    obtain ⟨m, hm, hor⟩ := hplays
    exact ⟨m, (hmem_iff m).mpr hm, hor⟩
  obtain ⟨r, hr⟩ := Option.isSome_iff_exists.mp (Rpart hpart)
  have hplayerIn : player ∈ NamesOf (players_df.map resetPlayer) := by
    obtain ⟨m, hm, hor⟩ := hplays
    obtain ⟨h1, h2, h3⟩ := hgood m hm
    rw [namesOf_map_reset]
    rcases hor with hp | hp
    · rw [← hp]
      exact h2
    · rw [← hp]
      exact h3
  have hre : rebuild_players players_df matches_df k =
      (sortByDatum matches_df).foldl (replayStep k) (players_df.map resetPlayer) := by
    unfold rebuild_players
    rw [hne]
    rfl
  have hhe : elo_history player matches_df k =
      ((sortByDatum matches_df).foldl (histStep player k) ([], [])).2 := rfl
  rw [hhe, hre, Rinv3, hr]
  have := Rinv1 player hplayerIn
  rw [hr] at this
  rw [this]
  rfl

/-- Witness for the amended C2 at a concrete two-player roster with one
confirmed match. -/
theorem C2_rating_history_matches_rebuild_witness :
    (elo_history "P" [⟨0, "P", "Q", 11, 8⟩] 32).getLast?.map (fun e => e.2) =
      some (rosterElo
        (rebuild_players [⟨"P", 1200, 0, 0, 0, ""⟩, ⟨"Q", 1200, 0, 0, 0, ""⟩]
          [⟨0, "P", "Q", 11, 8⟩] 32) "P") :=
  C2_rating_history_matches_rebuild
    [⟨"P", 1200, 0, 0, 0, ""⟩, ⟨"Q", 1200, 0, 0, 0, ""⟩]
    [⟨0, "P", "Q", 11, 8⟩] "P" 32 (by decide)
    ⟨⟨0, "P", "Q", 11, 8⟩, by decide, by decide⟩

/-- C3: a match naming a player that is absent from the roster is
skipped entirely during the replay: it changes no rating and no counter,
the replay continues with the remaining matches (dropping the match from
any position of the replayed list yields the same roster), and a history
consisting only of such a match leaves the reset roster unchanged.  The
replay is a total function, so no error can be raised. -/
theorem C3_missing_participant_skipped (k : ℤ) (players_df : List Player) (m : Match)
    (h : m.a ∉ NamesOf players_df ∨ m.b ∉ NamesOf players_df) :
    (∀ pre post : List Match,
      (pre ++ m :: post).foldl (replayStep k) (players_df.map resetPlayer) =
        (pre ++ post).foldl (replayStep k) (players_df.map resetPlayer))
    ∧ rebuild_players players_df [m] k = players_df.map resetPlayer := by
  constructor
  · intro pre post
    rw [List.foldl_append, List.foldl_append, List.foldl_cons]
    congr 1
    apply replayStep_skip
    rw [foldl_replay_namesOf, namesOf_map_reset]
    exact h
  · have hs : sortByDatum [m] = [m] := by
      unfold sortByDatum
      exact List.mergeSort_singleton _
    unfold rebuild_players
    rw [hs]
    show replayStep k (players_df.map resetPlayer) m = players_df.map resetPlayer
    apply replayStep_skip
    rw [namesOf_map_reset]
    exact h

theorem sortByDatum_of_sorted {ms : List Match}
    (h : List.Pairwise (fun x y => x.datum ≤ y.datum) ms) : sortByDatum ms = ms := by
  unfold sortByDatum
  apply List.mergeSort_of_sorted
  exact h.imp (fun hxy => decide_eq_true hxy)

/-- Witness for C3: a single match against the absent player Q is
skipped on a one-player roster. -/
theorem C3_missing_participant_skipped_witness :
    (([] ++ (⟨0, "P", "Q", 11, 0⟩ : Match) :: []).foldl (replayStep 32)
        (([⟨"P", 1200, 0, 0, 0, ""⟩] : List Player).map resetPlayer) =
      (([] : List Match) ++ []).foldl (replayStep 32)
        (([⟨"P", 1200, 0, 0, 0, ""⟩] : List Player).map resetPlayer))
    ∧ rebuild_players [⟨"P", 1200, 0, 0, 0, ""⟩] [⟨0, "P", "Q", 11, 0⟩] 32 =
        ([⟨"P", 1200, 0, 0, 0, ""⟩] : List Player).map resetPlayer :=
  ⟨(C3_missing_participant_skipped 32 [⟨"P", 1200, 0, 0, 0, ""⟩] ⟨0, "P", "Q", 11, 0⟩
      (by decide)).1 [] [],
   (C3_missing_participant_skipped 32 [⟨"P", 1200, 0, 0, 0, ""⟩] ⟨0, "P", "Q", 11, 0⟩
      (by decide)).2⟩

/-- C5: at the failing input - two distinct matches sharing a timestamp,
once in each storage order - the replay follows the tie order the sort
leaves, so the two permutations of the same timestamps-and-content
rebuild to different rosters (P at 1199 vs 1201), contradicting the
claimed stable-sort order-independence.  The source does not even fix a
tie order: `sort_values` defaults to quicksort, which pandas documents
as not stable. -/
theorem C5_equal_timestamp_rosters_differ :
    ([⟨5, "P", "Q", 11, 8⟩, ⟨5, "Q", "P", 11, 8⟩] : List Match).Perm
      [⟨5, "Q", "P", 11, 8⟩, ⟨5, "P", "Q", 11, 8⟩]
    ∧ rebuild_players [⟨"P", 1200, 0, 0, 0, ""⟩, ⟨"Q", 1200, 0, 0, 0, ""⟩]
        [⟨5, "P", "Q", 11, 8⟩, ⟨5, "Q", "P", 11, 8⟩] 32 =
      [⟨"P", 1199, 1, 1, 2, ""⟩, ⟨"Q", 1201, 1, 1, 2, ""⟩]
    ∧ rebuild_players [⟨"P", 1200, 0, 0, 0, ""⟩, ⟨"Q", 1200, 0, 0, 0, ""⟩]
        [⟨5, "Q", "P", 11, 8⟩, ⟨5, "P", "Q", 11, 8⟩] 32 =
      [⟨"P", 1201, 1, 1, 2, ""⟩, ⟨"Q", 1199, 1, 1, 2, ""⟩]
    ∧ rebuild_players [⟨"P", 1200, 0, 0, 0, ""⟩, ⟨"Q", 1200, 0, 0, 0, ""⟩]
        [⟨5, "P", "Q", 11, 8⟩, ⟨5, "Q", "P", 11, 8⟩] 32 ≠
      rebuild_players [⟨"P", 1200, 0, 0, 0, ""⟩, ⟨"Q", 1200, 0, 0, 0, ""⟩]
        [⟨5, "Q", "P", 11, 8⟩, ⟨5, "P", "Q", 11, 8⟩] 32 := by
  have h1 : sortByDatum [⟨5, "P", "Q", 11, 8⟩, ⟨5, "Q", "P", 11, 8⟩] =
      [⟨5, "P", "Q", 11, 8⟩, ⟨5, "Q", "P", 11, 8⟩] := sortByDatum_of_sorted (by decide)
  have h2 : sortByDatum [⟨5, "Q", "P", 11, 8⟩, ⟨5, "P", "Q", 11, 8⟩] =
      [⟨5, "Q", "P", 11, 8⟩, ⟨5, "P", "Q", 11, 8⟩] := sortByDatum_of_sorted (by decide)
  refine ⟨by decide, ?_, ?_, ?_⟩
  · unfold rebuild_players
    rw [h1]
    decide
  · unfold rebuild_players
    rw [h2]
    decide
  · unfold rebuild_players
    rw [h1, h2]
    decide

theorem rebuild_players_eq_reset (players_df : List Player) (matches_df : List Match) (k : ℤ)
    (h : matches_df.isEmpty = true) :
    rebuild_players players_df matches_df k = players_df.map resetPlayer := by
  show (if matches_df.isEmpty = true then players_df.map resetPlayer
        else (sortByDatum matches_df).foldl (replayStep k) (players_df.map resetPlayer)) =
      players_df.map resetPlayer
  rw [if_pos h]

theorem rebuild_players_eq_foldl (players_df : List Player) (matches_df : List Match) (k : ℤ)
    (h : matches_df.isEmpty = false) :
    rebuild_players players_df matches_df k =
      (sortByDatum matches_df).foldl (replayStep k) (players_df.map resetPlayer) := by
  show (if matches_df.isEmpty = true then players_df.map resetPlayer
        else (sortByDatum matches_df).foldl (replayStep k) (players_df.map resetPlayer)) = _
  rw [h]
  rfl

/-- C6: the rebuild recomputes from scratch - its result only depends on
the roster through the reset projection, so any prior stored ratings and
counters are irrelevant - and on an empty match history it returns
exactly the reset roster, every row back at ELO 1200 with all counters
zero. -/
theorem C6_full_reset_and_empty_history (players_df ps2 : List Player)
    (matches_df : List Match) (k : ℤ)
    (h : players_df.map resetPlayer = ps2.map resetPlayer) :
    rebuild_players players_df matches_df k = rebuild_players ps2 matches_df k
    ∧ rebuild_players players_df [] k =
        players_df.map (fun p =>
          { p with elo := 1200, siege := 0, nieder := 0, spiele := 0 }) := by
  constructor
  · unfold rebuild_players
    rw [h]
  · rfl

/-- Witness for C6: two rosters with the same name and PIN but different
stored stats rebuild identically, and an empty history yields the reset
roster. -/
theorem C6_full_reset_and_empty_history_witness :
    (rebuild_players [⟨"P", 1555, 3, 4, 7, "h"⟩] [⟨0, "P", "Q", 11, 8⟩] 32 =
      rebuild_players [⟨"P", 900, 0, 1, 1, "h"⟩] [⟨0, "P", "Q", 11, 8⟩] 32)
    ∧ rebuild_players [⟨"P", 1555, 3, 4, 7, "h"⟩] [] 32 =
        ([⟨"P", 1555, 3, 4, 7, "h"⟩] : List Player).map (fun p =>
          { p with elo := 1200, siege := 0, nieder := 0, spiele := 0 }) :=
  C6_full_reset_and_empty_history [⟨"P", 1555, 3, 4, 7, "h"⟩] [⟨"P", 900, 0, 1, 1, "h"⟩]
    [⟨0, "P", "Q", 11, 8⟩] 32 (by decide)

theorem updateRows_counters (ps : List Player) (nm : String) (v w l : ℤ)
    (hw : 0 ≤ w) (hl : 0 ≤ l) (hwl : w + l = 1)
    (hInv : ∀ p ∈ ps,
      p.siege + p.nieder = p.spiele ∧ 0 ≤ p.siege ∧ 0 ≤ p.nieder ∧ 0 ≤ p.spiele) :
    ∀ p ∈ updateRows ps nm v w l,
      p.siege + p.nieder = p.spiele ∧ 0 ≤ p.siege ∧ 0 ≤ p.nieder ∧ 0 ≤ p.spiele := by
  intro p hp
  unfold updateRows at hp
  split at hp
  · exact hInv p hp
  · rename_i p0 heq
    obtain ⟨q, hq, hqe⟩ := List.mem_map.mp hp
    have hp0 : p0 ∈ ps := by
      unfold findRow at heq
      exact List.mem_of_find?_eq_some heq
    obtain ⟨e0, s0, n0, sp0⟩ := hInv p0 hp0
    subst hqe
    unfold applyUpdate
    by_cases hb : (q.name == nm) = true
    · rw [if_pos hb]
      refine ⟨?_, ?_, ?_, ?_⟩
      · show p0.siege + w + (p0.nieder + l) = p0.spiele + 1
        omega
      · show 0 ≤ p0.siege + w
        omega
      · show 0 ≤ p0.nieder + l
        omega
      · show 0 ≤ p0.spiele + 1
        omega
    · rw [if_neg hb]
      exact hInv q hq

theorem scoreA_bounds (m : Match) : 0 ≤ scoreA m ∧ scoreA m ≤ 1 := by
  unfold scoreA
  split <;> omega

theorem replayStep_counters (k : ℤ) (ps : List Player) (m : Match)
    (hInv : ∀ p ∈ ps,
      p.siege + p.nieder = p.spiele ∧ 0 ≤ p.siege ∧ 0 ≤ p.nieder ∧ 0 ≤ p.spiele) :
    ∀ p ∈ replayStep k ps m,
      p.siege + p.nieder = p.spiele ∧ 0 ≤ p.siege ∧ 0 ≤ p.nieder ∧ 0 ≤ p.spiele := by
  unfold replayStep
  split
  · exact hInv
  · obtain ⟨hs0, hs1⟩ := scoreA_bounds m
    intro p hp
    refine updateRows_counters _ _ _ _ _ (by omega) (by omega) (by omega) ?_ p hp
    exact updateRows_counters _ _ _ _ _ (by omega) (by omega) (by omega) hInv

theorem foldl_replay_counters (k : ℤ) : ∀ (L : List Match) (ps : List Player),
    (∀ p ∈ ps,
      p.siege + p.nieder = p.spiele ∧ 0 ≤ p.siege ∧ 0 ≤ p.nieder ∧ 0 ≤ p.spiele) →
    ∀ p ∈ L.foldl (replayStep k) ps,
      p.siege + p.nieder = p.spiele ∧ 0 ≤ p.siege ∧ 0 ≤ p.nieder ∧ 0 ≤ p.spiele := by
  intro L
  induction L with
  | nil => intro ps h; exact h
  | cons m L ih =>
    intro ps h
    simp only [List.foldl_cons]
    exact ih (replayStep k ps m) (replayStep_counters k ps m h)

theorem reset_counters (players_df : List Player) :
    ∀ p ∈ players_df.map resetPlayer,
      p.siege + p.nieder = p.spiele ∧ 0 ≤ p.siege ∧ 0 ≤ p.nieder ∧ 0 ≤ p.spiele := by
  intro p hp
  obtain ⟨q, hq, hqe⟩ := List.mem_map.mp hp
  subst hqe
  refine ⟨?_, ?_, ?_, ?_⟩
  · show (0 : ℤ) + 0 = 0
    omega
  · show (0 : ℤ) ≤ 0
    omega
  · show (0 : ℤ) ≤ 0
    omega
  · show (0 : ℤ) ≤ 0
    omega

/-- C7: every roster row produced by the rebuild satisfies
wins + losses = games with all three counters non-negative. -/
theorem C7_wins_losses_games_invariant (players_df : List Player) (matches_df : List Match)
    (k : ℤ) :
    ∀ p ∈ rebuild_players players_df matches_df k,
      p.siege + p.nieder = p.spiele ∧ 0 ≤ p.siege ∧ 0 ≤ p.nieder ∧ 0 ≤ p.spiele := by
  cases he : matches_df.isEmpty with
  | true =>
    rw [rebuild_players_eq_reset players_df matches_df k he]
    exact reset_counters players_df
  | false =>
    rw [rebuild_players_eq_foldl players_df matches_df k he]
    exact foldl_replay_counters k (sortByDatum matches_df) (players_df.map resetPlayer)
      (reset_counters players_df)

/-- Witness for C7 on a one-match history: the winning row carries
1 + 0 = 1 games. -/
theorem C7_wins_losses_games_invariant_witness :
    (⟨"P", 1216, 1, 0, 1, ""⟩ : Player).siege + (⟨"P", 1216, 1, 0, 1, ""⟩ : Player).nieder =
        (⟨"P", 1216, 1, 0, 1, ""⟩ : Player).spiele
    ∧ 0 ≤ (⟨"P", 1216, 1, 0, 1, ""⟩ : Player).siege
    ∧ 0 ≤ (⟨"P", 1216, 1, 0, 1, ""⟩ : Player).nieder
    ∧ 0 ≤ (⟨"P", 1216, 1, 0, 1, ""⟩ : Player).spiele :=
  C7_wins_losses_games_invariant
    [⟨"P", 1200, 0, 0, 0, ""⟩, ⟨"Q", 1200, 0, 0, 0, ""⟩] [⟨0, "P", "Q", 11, 8⟩] 32
    ⟨"P", 1216, 1, 0, 1, ""⟩
    (by
      have hs : sortByDatum [⟨0, "P", "Q", 11, 8⟩] = [⟨0, "P", "Q", 11, 8⟩] := by
        unfold sortByDatum
        exact List.mergeSort_singleton _
      rw [rebuild_players_eq_foldl _ [⟨0, "P", "Q", 11, 8⟩] 32 rfl, hs]
      decide)

theorem applyUpdate_name_pin (nm : String) (v w l : ℤ) (p0 p : Player) :
    ((applyUpdate nm v w l p0 p).name, (applyUpdate nm v w l p0 p).pin) = (p.name, p.pin) := by
  unfold applyUpdate
  by_cases hb : (p.name == nm) = true
  · rw [if_pos hb]
  · rw [if_neg hb]

theorem updateRows_map_namePin (ps : List Player) (nm : String) (v w l : ℤ) :
    (updateRows ps nm v w l).map (fun p => (p.name, p.pin)) =
      ps.map (fun p => (p.name, p.pin)) := by
  unfold updateRows
  split
  · rfl
  · rw [List.map_map]
    apply List.map_congr_left
    intro p hp
    exact applyUpdate_name_pin _ _ _ _ _ p

theorem replayStep_map_namePin (k : ℤ) (ps : List Player) (m : Match) :
    (replayStep k ps m).map (fun p => (p.name, p.pin)) = ps.map (fun p => (p.name, p.pin)) := by
  unfold replayStep
  split
  · rfl
  · simp only [updateRows_map_namePin]

theorem foldl_replay_map_namePin (k : ℤ) : ∀ (L : List Match) (ps : List Player),
    (L.foldl (replayStep k) ps).map (fun p => (p.name, p.pin)) =
      ps.map (fun p => (p.name, p.pin)) := by
  intro L
  induction L with
  | nil => intro ps; rfl
  | cons m L ih =>
    intro ps
    simp only [List.foldl_cons]
    rw [ih, replayStep_map_namePin]

/-- C10: the rebuild is a pure function of its arguments (the embedding
cannot mutate its input), and the returned roster has exactly the input
roster's rows in order, with identical name and PIN columns - only the
ELO and counter columns are recomputed. -/
theorem C10_rebuild_preserves_names_and_pins (players_df : List Player)
    (matches_df : List Match) (k : ℤ) :
    (rebuild_players players_df matches_df k).map (fun p => (p.name, p.pin)) =
      players_df.map (fun p => (p.name, p.pin)) := by
  cases he : matches_df.isEmpty with
  | true =>
    rw [rebuild_players_eq_reset players_df matches_df k he, List.map_map]
    rfl
  | false =>
    rw [rebuild_players_eq_foldl players_df matches_df k he, foldl_replay_map_namePin, List.map_map]
    rfl

/-- C8: submitting a self-match fails with the invalid-input error (the
handler returns no state, so nothing is mutated); for a reporter
distinct from the opponent, when the pending labels are the fresh
`0..n-1` range that loading assigns (so label `n` is unused - true at
every handler invocation, since the stores are re-read per interaction),
exactly one new pending row is appended, carrying `confA = true`,
`confB = false` and the current timestamp, and neither the roster nor
the confirmed history changes. -/
theorem C8_submit (st : AppState) (current opponent : String) (pa pb now : ℤ)
    (hfresh : ∀ e ∈ st.pending, e.1 < st.pending.length) :
    (current = opponent →
      submitStep st current opponent pa pb now =
        .error "Spieler duerfen nicht identisch sein.")
    ∧ (current ≠ opponent →
      submitStep st current opponent pa pb now =
        .ok { st with pending :=
          st.pending ++ [(st.pending.length, ⟨now, current, opponent, pa, pb, true, false⟩)] }) := by
  constructor
  · intro h
    unfold submitStep
    rw [if_pos (beq_iff_eq.mpr h)]
  · intro h
    have hne : ¬ ((current == opponent) = true) := by
      intro hcon
      exact h (beq_iff_eq.mp hcon)
    have hnone : (st.pending.find? (fun e => e.1 == st.pending.length)).isSome = false := by
      cases hf : st.pending.find? (fun e => e.1 == st.pending.length) with
      | none => rfl
      | some e =>
        exfalso
        have hmem := List.mem_of_find?_eq_some hf
        have hbeq := List.find?_some hf
        have heq : e.1 = st.pending.length := beq_iff_eq.mp hbeq
        have hlt := hfresh e hmem
        omega
    unfold submitStep
    rw [if_neg hne]
    simp only [hnone]
    rfl

/-- Witness for C8: a self-report errors out, and a fresh store gains
exactly one pending row labelled with the store size. -/
theorem C8_submit_witness :
    (submitStep ⟨[], [], []⟩ "P" "P" 11 8 0 = .error "Spieler duerfen nicht identisch sein.")
    ∧ (submitStep ⟨[], [], [(0, ⟨0, "A", "B", 11, 8, true, false⟩)]⟩ "P" "Q" 11 8 5 =
        .ok ⟨[], [], [(0, ⟨0, "A", "B", 11, 8, true, false⟩),
          (1, ⟨5, "P", "Q", 11, 8, true, false⟩)]⟩) :=
  ⟨(C8_submit ⟨[], [], []⟩ "P" "P" 11 8 0 (by decide)).1 rfl,
   (C8_submit ⟨[], [], [(0, ⟨0, "A", "B", 11, 8, true, false⟩)]⟩ "P" "Q" 11 8 5
     (by decide)).2 (by decide)⟩

/-- C9: the reject handler removes exactly the referenced pending rows
and touches neither the roster nor the confirmed history; for a label
that is not in the pending store it is a complete no-op (the source only
renders the button for existing rows; the spec prescribes the benign
no-op for a stale id). -/
theorem C9_reject (st : AppState) (idx : ℕ) :
    rejectStep st idx = { st with pending := st.pending.filter (fun e => !(e.1 == idx)) }
    ∧ (rejectStep st idx).players = st.players
    ∧ (rejectStep st idx).matchHist = st.matchHist
    ∧ ((st.pending.find? (fun e => e.1 == idx)).isNone → rejectStep st idx = st) := by
  refine ⟨rfl, rfl, rfl, ?_⟩
  intro h
  unfold rejectStep
  have hfe : st.pending.filter (fun e => !(e.1 == idx)) = st.pending := by
    apply List.filter_eq_self.mpr
    intro e he
    cases hb : (e.1 == idx) with
    | false => rfl
    | true =>
      exfalso
      have hsome : (st.pending.find? (fun e => e.1 == idx)).isSome := by
        rw [List.find?_isSome]
        exact ⟨e, he, hb⟩
      rw [Option.isNone_iff_eq_none] at h
      rw [h] at hsome
      simp at hsome
  rw [hfe]

/-- Witness for C9: rejecting a label absent from the pending store
changes nothing. -/
theorem C9_reject_witness :
    rejectStep ⟨[], [], [((0 : ℕ), ⟨0, "A", "B", 11, 8, true, false⟩)]⟩ 5 =
      ⟨[], [], [((0 : ℕ), ⟨0, "A", "B", 11, 8, true, false⟩)]⟩ :=
  (C9_reject ⟨[], [], [((0 : ℕ), ⟨0, "A", "B", 11, 8, true, false⟩)]⟩ 5).2.2.2 (by decide)

/-- C4: the confirm handler sets the current player's side flag; when
both flags are then true, the row is appended (minus the flags) to the
confirmed history, removed from the pending store, and the roster is
rebuilt over the updated history with the default K-factor; when only
one flag is true afterwards, the history, roster and pending membership
are untouched (only the flag cell is written); and re-confirming a side
whose flag is already set - while the other side is still unset, as in
every reachable pending store - leaves the whole state unchanged, so a
rating change happens only on the transition into the both-confirmed
state. -/
theorem C4_confirm (st : AppState) (idx : ℕ) (current : String) (row row' : PendingRow)
    (hfind : st.pending.find? (fun e => e.1 == idx) = some (idx, row))
    (hrow' : row' = if row.a == current then { row with confA := true }
                    else { row with confB := true }) :
    ((row'.confA = true ∧ row'.confB = true) →
      confirmStep st idx current =
        { players := rebuild_players st.players (st.matchHist ++ [toMatch row'])
          matchHist := st.matchHist ++ [toMatch row']
          pending := st.pending.filter (fun e => !(e.1 == idx)) })
    ∧ (¬ (row'.confA = true ∧ row'.confB = true) →
      (confirmStep st idx current).matchHist = st.matchHist
      ∧ (confirmStep st idx current).players = st.players
      ∧ (confirmStep st idx current).pending =
          st.pending.map (fun e => if e.1 == idx then (idx, row') else e))
    ∧ (((row.a = current ∧ row.confA = true ∧ row.confB = false) ∨
        (row.a ≠ current ∧ row.confB = true ∧ row.confA = false)) →
      (∀ e ∈ st.pending, e.1 = idx → e.2 = row) →
      confirmStep st idx current = st) := by
  have hstep : confirmStep st idx current =
      (if row'.confA && row'.confB then
        { players := rebuild_players st.players (st.matchHist ++ [toMatch row'])
          matchHist := st.matchHist ++ [toMatch row']
          pending := (st.pending.map (fun e => if e.1 == idx then (idx, row') else e)).filter
            (fun e => !(e.1 == idx)) }
      else { st with pending := st.pending.map (fun e => if e.1 == idx then (idx, row') else e) }) := by
    subst hrow'
    unfold confirmStep
    rw [hfind]
  have hpfilter : (st.pending.map (fun e => if e.1 == idx then (idx, row') else e)).filter
      (fun e => !(e.1 == idx)) = st.pending.filter (fun e => !(e.1 == idx)) := by
    rw [List.filter_map]
    have hcomp : ((fun e : ℕ × PendingRow => !(e.1 == idx)) ∘
        (fun e => if e.1 == idx then (idx, row') else e)) =
        (fun e : ℕ × PendingRow => !(e.1 == idx)) := by
      funext e
      by_cases hb : (e.1 == idx) = true
      · simp [Function.comp, hb]
      · simp [Function.comp, hb]
    rw [hcomp]
    have h1 : ∀ e ∈ st.pending.filter (fun e => !(e.1 == idx)),
        (if e.1 == idx then ((idx, row') : ℕ × PendingRow) else e) = e := by
      intro e he
      have hp := List.of_mem_filter he
      have hb : (e.1 == idx) = false := by
        cases hq : (e.1 == idx) with
        | false => rfl
        | true =>
          rw [hq] at hp
          simp at hp
      rw [hb]
      rfl
    rw [List.map_congr_left h1, List.map_id']
  refine ⟨?_, ?_, ?_⟩
  · intro h
    rw [hstep, if_pos (by rw [Bool.and_eq_true]; exact h), hpfilter]
  · intro h
    have hcond : ¬ ((row'.confA && row'.confB) = true) := by
      intro hcon
      rw [Bool.and_eq_true] at hcon
      exact h hcon
    rw [hstep, if_neg hcond]
    exact ⟨rfl, rfl, rfl⟩
  · intro hside huniq
    have hre : row' = row := by
      rw [hrow']
      rcases hside with ⟨hac, hca, hcb⟩ | ⟨hac, hcb, hca⟩
      · rw [if_pos (beq_iff_eq.mpr hac)]
        cases row
        simp_all
      · rw [if_neg (fun hcon => hac (beq_iff_eq.mp hcon))]
        cases row
        simp_all
    have hcond : ¬ ((row'.confA && row'.confB) = true) := by
      rw [hre]
      rcases hside with ⟨_, hca, hcb⟩ | ⟨_, hcb, hca⟩
      · rw [hca, hcb]
        simp
      · rw [hca, hcb]
        simp
    rw [hstep, if_neg hcond]
    have hmap : st.pending.map (fun e => if e.1 == idx then (idx, row') else e) = st.pending := by
      have h1 : ∀ e ∈ st.pending, (if e.1 == idx then ((idx, row') : ℕ × PendingRow) else e) = e := by
        intro e he
        by_cases hb : (e.1 == idx) = true
        · rw [if_pos hb, hre]
          have he1 : e.1 = idx := beq_iff_eq.mp hb
          have he2 : e.2 = row := huniq e he he1
          exact Prod.ext he1.symm he2.symm
        · rw [if_neg hb]
      rw [List.map_congr_left h1, List.map_id']
    rw [hmap]

/-- Witness for C4: promoting the second confirmation appends the match,
empties pending and rebuilds; re-confirming an already-confirmed side of
a half-confirmed row changes nothing. -/
theorem C4_confirm_witness :
    (confirmStep ⟨[⟨"P", 1200, 0, 0, 0, ""⟩, ⟨"Q", 1200, 0, 0, 0, ""⟩], [],
        [(0, ⟨3, "P", "Q", 11, 8, true, false⟩)]⟩ 0 "Q" =
      ⟨rebuild_players [⟨"P", 1200, 0, 0, 0, ""⟩, ⟨"Q", 1200, 0, 0, 0, ""⟩]
          [⟨3, "P", "Q", 11, 8⟩],
        [⟨3, "P", "Q", 11, 8⟩], []⟩)
    ∧ confirmStep ⟨[⟨"P", 1200, 0, 0, 0, ""⟩, ⟨"Q", 1200, 0, 0, 0, ""⟩], [],
        [(0, ⟨3, "P", "Q", 11, 8, false, true⟩)]⟩ 0 "Q" =
      ⟨[⟨"P", 1200, 0, 0, 0, ""⟩, ⟨"Q", 1200, 0, 0, 0, ""⟩], [],
        [(0, ⟨3, "P", "Q", 11, 8, false, true⟩)]⟩ :=
  ⟨(C4_confirm ⟨[⟨"P", 1200, 0, 0, 0, ""⟩, ⟨"Q", 1200, 0, 0, 0, ""⟩], [],
      [(0, ⟨3, "P", "Q", 11, 8, true, false⟩)]⟩ 0 "Q"
      ⟨3, "P", "Q", 11, 8, true, false⟩ ⟨3, "P", "Q", 11, 8, true, true⟩
      (by decide) (by decide)).1 (by decide),
   (C4_confirm ⟨[⟨"P", 1200, 0, 0, 0, ""⟩, ⟨"Q", 1200, 0, 0, 0, ""⟩], [],
      [(0, ⟨3, "P", "Q", 11, 8, false, true⟩)]⟩ 0 "Q"
      ⟨3, "P", "Q", 11, 8, false, true⟩ ⟨3, "P", "Q", 11, 8, false, true⟩
      (by decide) (by decide)).2.2 (by decide) (by decide)⟩

end TT
